import Mathlib

/-!
Shallow embedding of the link-tree, pose-refresh and camera-follow logic of
the coral repository (src/src/coral_node.cpp together with
src/include/coral/coral_node.h).

Transform matrices are modelled as a free composition structure: the code
never inspects matrix entries, it only composes the result of
lookupTransform with the committed matrix of a Link, so the identity of the
operands is all the claims need.  The transform directory (tf2 buffer) and
the structural-description parser are external collaborators and enter as
abstract inputs.  Timestamp delays, computed in the code as
(now() - stamp).seconds(), are modelled as rational numbers supplied by the
directory per lookup.
-/

namespace Coral

/-- Free matrix expressions: identity, the result of a directory
lookupTransform between two named frames, an arbitrary committed matrix
tagged by a number, and composition (osg expression M * P). -/
inductive Mat where
  | ident : Mat
  | lookup (parent child : String) : Mat
  | base (tag : Nat) : Mat
  | mul (a b : Mat) : Mat
deriving DecidableEq, Repr

/-- A pointer to a Link of the node: either the member world_link, or the
element of the links vector at an absolute index. -/
inductive LinkRef where
  | world : LinkRef
  | idx (i : Nat) : LinkRef
deriving DecidableEq, Repr

/-- One Link of the kinematic tree: its name, the parent reference
established by setParent, and its committed transform matrix
(frame()->getMatrix()). -/
structure Link where
  name : String
  parent : LinkRef
  mat : Mat
deriving DecidableEq, Repr

/-- Name of the World Link (Link world_link{"world"} in coral_node.h). -/
def worldName : String := "world"

/-- The reserved virtual camera frame (coral_cam_link in coral_node.h). -/
def coral_cam_link : String := "coral_cam_view"

/-- The transform directory as seen through the tf2 buffer interface used by
coral_node.cpp: ready(), _frameExists, getParent, and for lookupTransform
only the timestamp delay matters (the matrix itself is the free expression
Mat.lookup parent child). -/
structure TfBuffer where
  ready : Bool
  frames : List String
  getParent : String → Option String
  delay : String → String → Rat

/-- std::find over the links vector by name, returning the index of the
first Link whose name matches. -/
def findLink (links : List Link) (p : String) : Option Nat :=
  match links with
  | [] => none
  | l :: rest => if l.name = p then some 0 else (findLink rest p).map (· + 1)

/-- Outcome of the getKnownCamParent body: the returned pointer (done),
dereferencing an empty optional (thrown, from parent.value() when the
initial getParent of the camera frame failed), or exhausted recursion fuel
(the C++ loop is while(true)). -/
inductive CamStep where
  | done (res : Option LinkRef) : CamStep
  | thrown : CamStep
  | fuelOut : CamStep
deriving DecidableEq, Repr

/-- The while(true) walk of getKnownCamParent, starting from the optional
parent of the camera frame.  Checks, in source order: world name, presence
in the links registry, then queries the directory one level further and
breaks with a null result when no parent is reported.  Also returns the
list of frames passed to getParent during the walk. -/
def camWalkQ (tf : TfBuffer) (links : List Link) :
    Option String → Nat → CamStep × List String
  | _, 0 => (CamStep.fuelOut, [])
  | none, _ + 1 => (CamStep.thrown, [])
  | some p, fuel + 1 =>
    if p = worldName then (CamStep.done (some LinkRef.world), [])
    else
      match findLink links p with
      | some i => (CamStep.done (some (LinkRef.idx i)), [])
      | none =>
        match tf.getParent p with
        | none => (CamStep.done none, [p])
        | some q =>
          let r := camWalkQ tf links (some q) fuel
          (r.1, p :: r.2)

/-- getName of a Link pointer (world_link is named "world"). -/
def refName (links : List Link) : LinkRef → String
  | LinkRef.world => worldName
  | LinkRef.idx i => ((links.get? i).map Link.name).getD ""

/-- frame()->getMatrix() of a Link pointer (the world matrix is the
identity). -/
def refMat (links : List Link) : LinkRef → Mat
  | LinkRef.world => Mat.ident
  | LinkRef.idx i => ((links.get? i).map Link.mat).getD Mat.ident

/-- The fast-path test of getKnownCamParent: prev_link != nullptr &&
parent.has_value() && parent.value() == prev_link->getName(). -/
def fastHit (tf : TfBuffer) (links : List Link) (prev : Option LinkRef) : Bool :=
  match prev with
  | some pl => tf.getParent coral_cam_link == some (refName links pl)
  | none => false

/-- The value of the static prev_link after the walk returns. -/
def camPrevOf : CamStep → Option LinkRef
  | CamStep.done r => r
  | _ => none

/-- Result of one call of getKnownCamParent: the outcome, the new value of
the static prev_link, and the frames queried through getParent. -/
structure CamRes where
  step : CamStep
  prev : Option LinkRef
  queries : List String
deriving Repr

/-- CoralNode::getKnownCamParent.  The static prev_link is passed in and
returned explicitly.  On a fast-path hit the memoized pointer is returned
after the single immediate-parent query; otherwise prev_link is reset and
the full walk runs from the parent of the camera frame. -/
def getKnownCamParent (tf : TfBuffer) (links : List Link) (prev : Option LinkRef)
    (fuel : Nat) : CamRes :=
  let parent := tf.getParent coral_cam_link
  if fastHit tf links prev then
    ⟨CamStep.done prev, prev, [coral_cam_link]⟩
  else
    let r := camWalkQ tf links parent fuel
    ⟨r.1, camPrevOf r.1, coral_cam_link :: r.2⟩

/-- Events of one refreshLinkPoses tick: refreshFrom per Link, scene-lock
acquisition and release, applyNewPose per Link, and the viewer calls. -/
inductive Ev where
  | refresh (name : String) : Ev
  | lockAcq : Ev
  | apply (name : String) : Ev
  | lockRel : Ev
  | lockCam (M : Mat) : Ev
  | freeCam : Ev
deriving DecidableEq, Repr

/-- What happened to the viewer camera during the tick. -/
inductive CamOutcome where
  | noCam : CamOutcome
  | noParent : CamOutcome
  | locked (M : Mat) : CamOutcome
  | freed : CamOutcome
  | thrown : CamOutcome
  | fuelOut : CamOutcome
deriving DecidableEq, Repr

/-- The matrix given to viewer.lockCamera: the lookup from the resolved
parent to the camera frame, composed with the parent committed matrix
when the parent is not named "world". -/
def camMatrix (links : List Link) (r : LinkRef) : Mat :=
  let pname := refName links r
  let M0 := Mat.lookup pname coral_cam_link
  if pname = worldName then M0 else Mat.mul M0 (refMat links r)

/-- The camera part of refreshLinkPoses, after getKnownCamParent returned:
on a resolved parent, lookupTransform and the delay guard
(delay < 1 || delay > 1e8 locks the camera, otherwise it is freed);
a null parent returns without touching the viewer. -/
def camPhase (tf : TfBuffer) (links : List Link) (step : CamStep) :
    List Ev × CamOutcome :=
  match step with
  | CamStep.thrown => ([], CamOutcome.thrown)
  | CamStep.fuelOut => ([], CamOutcome.fuelOut)
  | CamStep.done none => ([], CamOutcome.noParent)
  | CamStep.done (some r) =>
    let d := tf.delay (refName links r) coral_cam_link
    if d < 1 ∨ d > 100000000 then
      ([Ev.lockCam (camMatrix links r)], CamOutcome.locked (camMatrix links r))
    else
      ([Ev.freeCam], CamOutcome.freed)

/-- Result of one tick: the event trace, the camera outcome, and the new
value of the static prev_link. -/
structure TickRes where
  trace : List Ev
  cam : CamOutcome
  prev : Option LinkRef
deriving Repr

/-- CoralNode::refreshLinkPoses.  Phase A (refreshFrom for every Link, only
when the buffer is ready, no lock), Phase B (applyNewPose for every Link
inside a single scene-lock acquisition), then the camera-follow step when
the camera frame exists. -/
def refreshLinkPoses (tf : TfBuffer) (links : List Link) (prev : Option LinkRef)
    (fuel : Nat) : TickRes :=
  let evA := if tf.ready then links.map (fun l => Ev.refresh l.name) else []
  let evB := [Ev.lockAcq] ++ links.map (fun l => Ev.apply l.name) ++ [Ev.lockRel]
  if coral_cam_link ∈ tf.frames then
    let res := getKnownCamParent tf links prev fuel
    let c := camPhase tf links res.step
    ⟨evA ++ evB ++ c.1, c.2, res.prev⟩
  else
    ⟨evA ++ evB, CamOutcome.noCam, prev⟩

/-- One parsed link descriptor delivered by the external URDF parser:
name, optional parent name, and its camera declarations. -/
structure UrdfLink where
  name : String
  parent : Option String
  cameras : List String
deriving DecidableEq, Repr

/-- Accumulated output of grafting one parsed batch: the Links appended to
the links vector, the entries merged into world_link by addElements, and
the camera declarations collected across the batch. -/
structure GraftOut where
  newLinks : List Link
  worldElems : List UrdfLink
  cams : List String
deriving DecidableEq, Repr

/-- The loop body of CoralNode::parseModel.  baseIdx is links.size() before
the batch (the iterator root); an entry named "world" is merged into
world_link and appends nothing; otherwise the entry is emplaced and its
parent resolved: absent or "world" parents bind to world_link, any other
parent name is searched with std::find over [root, links.end()) - that is,
over the batch built so far including the entry just emplaced.  A failed
find dereferences the end iterator in the C++ code (undefined behavior);
this is modelled as a failed graft (none). -/
def graft (baseIdx : Nat) (acc : GraftOut) : List UrdfLink → Option GraftOut
  | [] => some acc
  | e :: rest =>
    if e.name = worldName then
      graft baseIdx { acc with
        worldElems := acc.worldElems ++ [e],
        cams := acc.cams ++ e.cameras } rest
    else
      match e.parent with
      | none =>
        graft baseIdx { acc with
          newLinks := acc.newLinks ++ [⟨e.name, LinkRef.world, Mat.ident⟩],
          cams := acc.cams ++ e.cameras } rest
      | some p =>
        if p = worldName then
          graft baseIdx { acc with
            newLinks := acc.newLinks ++ [⟨e.name, LinkRef.world, Mat.ident⟩],
            cams := acc.cams ++ e.cameras } rest
        else
          match findLink (acc.newLinks ++ [⟨e.name, LinkRef.world, Mat.ident⟩]) p with
          | none => none
          | some j =>
            graft baseIdx { acc with
              newLinks := acc.newLinks ++ [⟨e.name, LinkRef.idx (baseIdx + j), Mat.ident⟩],
              cams := acc.cams ++ e.cameras } rest

/-- The mutable state of the node that the spawn and parse operations
touch: the links vector, the elements merged into world_link, the list of
known model namespaces, the pose subscriptions (topic name and the name of
the Link whose poseCallback handles it), and the collected cameras. -/
structure St where
  links : List Link
  worldElems : List UrdfLink
  models : List String
  poseSubs : List (String × String)
  cameras : List String
deriving DecidableEq, Repr

/-- CoralNode::hasModel: std::find over the known model namespaces. -/
def hasModel (st : St) (m : String) : Bool :=
  st.models.contains m

/-- CoralNode::parseModel: run the external parser on the description and
graft the batch onto the tree; addCameras only touches the camera list. -/
def parseModel (parseTree : String → List UrdfLink) (st : St)
    (description : String) : Option St :=
  match graft st.links.length ⟨[], [], []⟩ (parseTree description) with
  | none => none
  | some g =>
    some { st with
      links := st.links ++ g.newLinks,
      worldElems := st.worldElems ++ g.worldElems,
      cameras := st.cameras ++ g.cams }

/-- The external collaborators of spawnModel: reading the world-model file,
the structural-description parser, and the per-namespace description
service (has_parameter / get_parameter on robot_state_publisher). -/
structure SpawnEnv where
  readFile : String → Option String
  parseTree : String → List UrdfLink
  rspHasParam : String → Bool
  rspDescription : String → String

/-- Result of one spawnModel call: the new state, whether a warning was
logged, whether the description service was requested, and whether the
call dispatched to findModels. -/
structure SpawnOut where
  st : St
  warned : Bool
  requestedService : Bool
  invokedFindModels : Bool
deriving Repr

/-- CoralNode::spawnModel.  Empty namespace and file dispatch to
findModels (discovery, modelled as a flag); a non-empty world-model file is
read and parsed directly, warning and leaving the state unchanged when the
file cannot be opened; a namespace already known is silently ignored;
a namespace whose description service has no robot_description parameter
warns and leaves the state unchanged; otherwise the description is parsed,
a pose subscription is created when a pose topic was supplied and the
parse appended at least one Link (its handler is the poseCallback of the
Link at the pre-parse size, the batch root), and the namespace is recorded
as known. -/
def spawnModel (env : SpawnEnv) (st : St) (model_ns pose_topic world_model : String) :
    Option SpawnOut :=
  if model_ns = "" ∧ world_model = "" then
    some ⟨st, false, false, true⟩
  else if world_model ≠ "" then
    match env.readFile world_model with
    | none => some ⟨st, true, false, false⟩
    | some txt =>
      match parseModel env.parseTree st txt with
      | none => none
      | some st2 => some ⟨st2, false, false, false⟩
  else if hasModel st model_ns then
    some ⟨st, false, false, false⟩
  else if env.rspHasParam model_ns = false then
    some ⟨st, true, true, false⟩
  else
    let rootIdx := st.links.length
    match parseModel env.parseTree st (env.rspDescription model_ns) with
    | none => none
    | some st2 =>
      let st3 :=
        if pose_topic ≠ "" ∧ rootIdx < st2.links.length then
          { st2 with poseSubs := st2.poseSubs ++
              [(model_ns ++ "/" ++ pose_topic,
                (((st2.links.get? rootIdx).map Link.name).getD ""))] }
        else st2
      some ⟨{ st3 with models := st3.models ++ [model_ns] }, false, true, false⟩

/-- A sequence of parseModel calls (used for the tree invariant over any
sequence of grafts). -/
def runParses (parseTree : String → List UrdfLink) (st : St) :
    List String → Option St
  | [] => some st
  | d :: ds =>
    match parseModel parseTree st d with
    | none => none
    | some st2 => runParses parseTree st2 ds

/-- A parent chain above the camera frame that never reaches the world name
or a tracked Link, and on whose last frame the directory reports no
parent. -/
def deadChain (tf : TfBuffer) (links : List Link) : List String → Bool
  | [] => false
  | [c] => (c != worldName) && (findLink links c).isNone && (tf.getParent c).isNone
  | c :: c2 :: rest =>
      (c != worldName) && (findLink links c).isNone &&
      (tf.getParent c == some c2) && deadChain tf links (c2 :: rest)

theorem findLink_some (p : String) :
    ∀ (links : List Link) (i : Nat), findLink links p = some i →
      ∃ l, links.get? i = some l ∧ l.name = p := by
  intro links
  induction links with
  | nil => intro i h; simp [findLink] at h
  | cons l rest ih =>
    intro i h
    by_cases hl : l.name = p
    · simp [findLink, hl] at h
      exact ⟨l, by rw [← h]; rfl, hl⟩
    · simp [findLink, hl] at h
      obtain ⟨j, hj, hji⟩ := h
      obtain ⟨l2, hl2, hl2n⟩ := ih j hj
      exact ⟨l2, by rw [← hji, List.get?_cons_succ]; exact hl2, hl2n⟩

theorem camWalkQ_deadChain (tf : TfBuffer) (links : List Link) :
    ∀ (cs : List String) (c : String) (fuel : Nat),
      deadChain tf links (c :: cs) = true → cs.length < fuel →
      (camWalkQ tf links (some c) fuel).1 = CamStep.done none := by
  intro cs
  induction cs with
  | nil =>
    intro c fuel hdead hfuel
    obtain ⟨f, rfl⟩ : ∃ f, fuel = f + 1 := ⟨fuel - 1, by omega⟩
    simp only [deadChain, Bool.and_eq_true, bne_iff_ne, ne_eq,
      Option.isNone_iff_eq_none] at hdead
    obtain ⟨⟨hw, hfind⟩, hpar⟩ := hdead
    simp [camWalkQ, hw, hfind, hpar]
  | cons c2 rest ih =>
    intro c fuel hdead hfuel
    obtain ⟨f, rfl⟩ : ∃ f, fuel = f + 1 := ⟨fuel - 1, by omega⟩
    simp only [deadChain, Bool.and_eq_true, bne_iff_ne, ne_eq,
      Option.isNone_iff_eq_none, beq_iff_eq] at hdead
    obtain ⟨⟨⟨hw, hfind⟩, hpar⟩, hrest⟩ := hdead
    have hrec := ih c2 f (by simpa [deadChain] using hrest) (by simpa using hfuel)
    simp [camWalkQ, hw, hfind, hpar, hrec]

theorem graft_spec (baseIdx : Nat) :
    ∀ (tree : List UrdfLink) (acc g : GraftOut), graft baseIdx acc tree = some g →
      g.worldElems = acc.worldElems ++ tree.filter (fun e => e.name == worldName) ∧
      ∀ l ∈ g.newLinks, l ∈ acc.newLinks ∨
        ∃ e ∈ tree, e.name ≠ worldName ∧ l.name = e.name := by
  intro tree
  induction tree with
  | nil =>
    intro acc g h
    simp [graft] at h
    subst h
    simp
  | cons e rest ih =>
    intro acc g h
    by_cases hw : e.name = worldName
    · simp only [graft, if_pos hw] at h
      obtain ⟨h1, h2⟩ := ih _ _ h
      refine ⟨by simpa [hw] using h1, ?_⟩
      intro l hl
      rcases h2 l hl with hin | ⟨e2, he2, hne, hname⟩
      · exact Or.inl hin
      · exact Or.inr ⟨e2, List.mem_cons_of_mem _ he2, hne, hname⟩
    · have step :
        ∀ acc2 : GraftOut, graft baseIdx acc2 rest = some g →
          acc2.worldElems = acc.worldElems →
          (∀ l ∈ acc2.newLinks, l ∈ acc.newLinks ∨ l.name = e.name) →
          g.worldElems = acc.worldElems ++
              (e :: rest).filter (fun e2 => e2.name == worldName) ∧
          ∀ l ∈ g.newLinks, l ∈ acc.newLinks ∨
            ∃ e2 ∈ e :: rest, e2.name ≠ worldName ∧ l.name = e2.name := by
        intro acc2 hacc2 hwe hnl
        obtain ⟨h1, h2⟩ := ih _ _ hacc2
        constructor
        · rw [h1, hwe]
          simp [hw]
        · intro l hl
          rcases h2 l hl with hin | ⟨e2, he2, hne, hname⟩
          · rcases hnl l hin with hin2 | hname2
            · exact Or.inl hin2
            · exact Or.inr ⟨e, List.mem_cons_self _ _, hw, hname2⟩
          · exact Or.inr ⟨e2, List.mem_cons_of_mem _ he2, hne, hname⟩
      simp only [graft, if_neg hw] at h
      cases hp : e.parent with
      | none =>
        rw [hp] at h
        refine step _ h rfl ?_
        intro l hl
        rcases List.mem_append.mp hl with hin | hnew
        · exact Or.inl hin
        · simp at hnew
          exact Or.inr (by simp [hnew])
      | some p =>
        simp only [hp] at h
        by_cases hpw : p = worldName
        · rw [if_pos hpw] at h
          refine step _ h rfl ?_
          intro l hl
          rcases List.mem_append.mp hl with hin | hnew
          · exact Or.inl hin
          · simp at hnew
            exact Or.inr (by simp [hnew])
        · rw [if_neg hpw] at h
          cases hf : findLink (acc.newLinks ++ [⟨e.name, LinkRef.world, Mat.ident⟩]) p with
          | none => simp [hf] at h
          | some j =>
            simp only [hf] at h
            refine step _ h rfl ?_
            intro l hl
            rcases List.mem_append.mp hl with hin | hnew
            · exact Or.inl hin
            · simp at hnew
              exact Or.inr (by simp [hnew])

theorem parseModel_shape (pt : String → List UrdfLink) (st : St) (d : String)
    (st2 : St) (h : parseModel pt st d = some st2) :
    (∃ g : GraftOut, graft st.links.length ⟨[], [], []⟩ (pt d) = some g ∧
       st2.links = st.links ++ g.newLinks ∧
       st2.worldElems = st.worldElems ++ g.worldElems) ∧
    st2.poseSubs = st.poseSubs ∧ st2.models = st.models := by
  unfold parseModel at h
  cases hg : graft st.links.length ⟨[], [], []⟩ (pt d) with
  | none => rw [hg] at h; exact absurd h (by simp)
  | some g =>
    rw [hg] at h
    simp only [Option.some.injEq] at h
    subst h
    exact ⟨⟨g, rfl, rfl, rfl⟩, rfl, rfl⟩

/-! Claim C1: the delay guard of the camera commit. -/

/-- Directory for the C1 counterexample: the camera frame exists, its
parent is the world frame, and the transform timestamp delay is 1e9
seconds. -/
def tfC1 : TfBuffer :=
  { ready := true, frames := [coral_cam_link],
    getParent := fun s => if s = coral_cam_link then some worldName else none,
    delay := fun _ _ => 1000000000 }

/-- C1 counterexample: with a transform timestamp delay of 1e9 seconds the
code invokes lockCamera, not freeCamera - the guard delay < 1 || delay > 1e8
treats an implausibly large delay as a reason to lock, contradicting the
claim that it causes freeCamera. -/
theorem C1_implausible_delay_locks :
    tfC1.delay worldName coral_cam_link = 1000000000 ∧
    (refreshLinkPoses tfC1 [] none 3).cam
        = CamOutcome.locked (Mat.lookup worldName coral_cam_link) ∧
    Ev.freeCam ∉ (refreshLinkPoses tfC1 [] none 3).trace := by
  exact ⟨rfl, by decide, by decide⟩

/-- C1 amended: when the camera frame exists and a parent Link is resolved,
the looked-up transform is applied through lockCamera exactly when the
timestamp delay is below 1 second or above 1e8 seconds (the huge-delay case
is treated as clock desynchronization and still locked); freeCamera is
invoked exactly when the delay lies in [1, 1e8] seconds. -/
theorem C1_delay_guard (tf : TfBuffer) (links : List Link) (prev : Option LinkRef)
    (fuel : Nat) (r : LinkRef)
    (hframe : coral_cam_link ∈ tf.frames)
    (hres : (getKnownCamParent tf links prev fuel).step = CamStep.done (some r)) :
    (tf.delay (refName links r) coral_cam_link < 1 ∨
        tf.delay (refName links r) coral_cam_link > 100000000 →
      (refreshLinkPoses tf links prev fuel).cam = CamOutcome.locked (camMatrix links r)) ∧
    (1 ≤ tf.delay (refName links r) coral_cam_link →
      tf.delay (refName links r) coral_cam_link ≤ 100000000 →
      (refreshLinkPoses tf links prev fuel).cam = CamOutcome.freed) := by
  have hcam : (refreshLinkPoses tf links prev fuel).cam
      = (camPhase tf links (getKnownCamParent tf links prev fuel).step).2 := by
    simp [refreshLinkPoses, hframe]
  rw [hcam, hres]
  constructor
  · intro hd
    simp only [camPhase]
    rw [if_pos hd]
  · intro h1 h2
    simp only [camPhase]
    rw [if_neg (by push_neg; exact ⟨h1, h2⟩)]

/-- Directory for the C1 witness: same chain with a fresh zero-second
delay. -/
def tfC1w : TfBuffer :=
  { ready := true, frames := [coral_cam_link],
    getParent := fun s => if s = coral_cam_link then some worldName else none,
    delay := fun _ _ => 0 }

/-- C1 witness: a fresh delay locks the camera on a concrete directory. -/
theorem C1_delay_guard_witness :
    (refreshLinkPoses tfC1w [] none 3).cam
      = CamOutcome.locked (camMatrix [] LinkRef.world) :=
  (C1_delay_guard tfC1w [] none 3 LinkRef.world (by decide) (by decide)).1
    (Or.inl (by decide))

/-! Claim C2: duplicate model namespaces are silently ignored. -/

/-- C2: when the namespace is already known, spawnModel returns early:
the state (links, models, subscriptions) is unchanged and the description
service is not requested. -/
theorem C2_duplicate_spawn (env : SpawnEnv) (st : St) (ns topic : String)
    (hns : ns ≠ "") (hdup : hasModel st ns = true) :
    spawnModel env st ns topic "" = some ⟨st, false, false, false⟩ := by
  unfold spawnModel
  rw [if_neg (fun hc => hns hc.1), if_neg (by simp), if_pos hdup]

/-- State and environment for the C2 witness: namespace "/r" is already
known. -/
def stC2 : St := ⟨[⟨"base", LinkRef.world, Mat.ident⟩], [], ["/r"], [], []⟩

/-- Environment for the C2 witness. -/
def envC2 : SpawnEnv :=
  { readFile := fun _ => none, parseTree := fun _ => [],
    rspHasParam := fun _ => true, rspDescription := fun _ => "" }

/-- C2 witness: re-spawning the known namespace "/r" is a no-op. -/
theorem C2_duplicate_spawn_witness :
    spawnModel envC2 stC2 "/r" "pose" "" = some ⟨stC2, false, false, false⟩ :=
  C2_duplicate_spawn envC2 stC2 "/r" "pose" (by decide) (by decide)

/-! Claim C3: parent resolution during a graft. -/

/-- Tree for the C3 counterexample: an existing Link named "A" from an
earlier batch. -/
def stC3 : St := ⟨[⟨"A", LinkRef.world, Mat.ident⟩], [], [], [], []⟩

/-- Parser for the C3 counterexample: one batch entry whose declared parent
"A" exists only among previously existing Links. -/
def ptC3 : String → List UrdfLink := fun _ => [⟨"B", some "A", []⟩]

/-- C3 counterexample: the declared parent "A" is present among the
previously existing Links of the tree, yet the graft fails, because
std::find in parseModel searches only from the start of the just-inserted
batch (iterator root) to links.end() - previously existing Links are never
searched, and the failed find dereferences the end iterator (undefined
behavior, modelled as a failed graft) instead of parenting "B" to "A" as
the claim states. -/
theorem C3_prior_parent_not_found :
    (∃ l ∈ stC3.links, l.name = "A") ∧
    ptC3 "d" = [⟨"B", some "A", []⟩] ∧
    parseModel ptC3 stC3 "d" = none := by
  exact ⟨by decide, rfl, by decide⟩

/-- The names of the Links a batch contributes to the links vector: every
entry except those named "world", in order. -/
def nwNames : List UrdfLink → List String
  | [] => []
  | e :: rest => if e.name = worldName then nwNames rest else e.name :: nwNames rest

/-- std::find over a list of frame names, returning the index of the first
match. -/
def findName (names : List String) (p : String) : Option Nat :=
  match names with
  | [] => none
  | n :: rest => if n = p then some 0 else (findName rest p).map (· + 1)

theorem findLink_eq_findName (p : String) :
    ∀ links : List Link, findLink links p = findName (links.map Link.name) p := by
  intro links
  induction links with
  | nil => rfl
  | cons l rest ih =>
    by_cases hl : l.name = p
    · simp [findLink, findName, hl]
    · simp [findLink, findName, hl, ih]

theorem findName_spec (p : String) :
    ∀ (names : List String) (j : Nat), findName names p = some j →
      j < names.length ∧ names.get? j = some p ∧
      ∀ k, k < j → names.get? k ≠ some p := by
  intro names
  induction names with
  | nil => intro j h; simp [findName] at h
  | cons n rest ih =>
    intro j h
    by_cases hn : n = p
    · simp [findName, hn] at h
      refine ⟨by simp [← h], by simp [← h, hn], ?_⟩
      intro k hk
      omega
    · simp [findName, hn] at h
      obtain ⟨j0, hj0, hj0e⟩ := h
      obtain ⟨h1, h2, h3⟩ := ih j0 hj0
      refine ⟨by simp [← hj0e]; omega, ?_, ?_⟩
      · rw [← hj0e, List.get?_cons_succ]
        exact h2
      · intro k hk
        cases k with
        | zero => simp [hn]
        | succ k0 =>
          rw [List.get?_cons_succ]
          exact h3 k0 (by omega)

theorem graft_names (b : Nat) :
    ∀ (tree : List UrdfLink) (acc g : GraftOut), graft b acc tree = some g →
      g.newLinks.map Link.name = acc.newLinks.map Link.name ++ nwNames tree := by
  intro tree
  induction tree with
  | nil =>
    intro acc g h
    simp [graft] at h
    subst h
    simp [nwNames]
  | cons e rest ih =>
    intro acc g h
    by_cases hw : e.name = worldName
    · simp only [graft, if_pos hw] at h
      rw [ih _ _ h]
      simp [nwNames, hw]
    · have step : ∀ acc2 : GraftOut, graft b acc2 rest = some g →
          acc2.newLinks.map Link.name = acc.newLinks.map Link.name ++ [e.name] →
          g.newLinks.map Link.name
            = acc.newLinks.map Link.name ++ nwNames (e :: rest) := by
        intro acc2 h2 hn
        rw [ih _ _ h2, hn]
        simp [nwNames, hw]
      simp only [graft, if_neg hw] at h
      cases hp : e.parent with
      | none =>
        simp only [hp] at h
        exact step _ h (by simp)
      | some p =>
        simp only [hp] at h
        by_cases hpw : p = worldName
        · rw [if_pos hpw] at h
          exact step _ h (by simp)
        · rw [if_neg hpw] at h
          cases hf : findLink (acc.newLinks ++ [⟨e.name, LinkRef.world, Mat.ident⟩]) p with
          | none => simp [hf] at h
          | some j =>
            simp only [hf] at h
            exact step _ h (by simp)

theorem graft_extends (b : Nat) :
    ∀ (tree : List UrdfLink) (acc g : GraftOut), graft b acc tree = some g →
      ∃ tail, g.newLinks = acc.newLinks ++ tail := by
  intro tree
  induction tree with
  | nil =>
    intro acc g h
    simp [graft] at h
    subst h
    exact ⟨[], by simp⟩
  | cons e rest ih =>
    intro acc g h
    by_cases hw : e.name = worldName
    · simp only [graft, if_pos hw] at h
      obtain ⟨t, ht⟩ := ih _ _ h
      exact ⟨t, ht⟩
    · simp only [graft, if_neg hw] at h
      cases hp : e.parent with
      | none =>
        simp only [hp] at h
        obtain ⟨t, ht⟩ := ih _ _ h
        exact ⟨⟨e.name, LinkRef.world, Mat.ident⟩ :: t, by rw [ht]; simp⟩
      | some p =>
        simp only [hp] at h
        by_cases hpw : p = worldName
        · rw [if_pos hpw] at h
          obtain ⟨t, ht⟩ := ih _ _ h
          exact ⟨⟨e.name, LinkRef.world, Mat.ident⟩ :: t, by rw [ht]; simp⟩
        · rw [if_neg hpw] at h
          cases hf : findLink (acc.newLinks ++ [⟨e.name, LinkRef.world, Mat.ident⟩]) p with
          | none => simp [hf] at h
          | some j =>
            simp only [hf] at h
            obtain ⟨t, ht⟩ := ih _ _ h
            exact ⟨⟨e.name, LinkRef.idx (b + j), Mat.ident⟩ :: t, by rw [ht]; simp⟩

theorem graft_append (b : Nat) :
    ∀ (pre suf : List UrdfLink) (acc : GraftOut),
      graft b acc (pre ++ suf)
        = (graft b acc pre).bind (fun g => graft b g suf) := by
  intro pre
  induction pre with
  | nil => intro suf acc; simp [graft]
  | cons e rest ih =>
    intro suf acc
    by_cases hw : e.name = worldName
    · simp only [List.cons_append, graft, if_pos hw]
      exact ih suf _
    · cases hp : e.parent with
      | none =>
        simp only [List.cons_append, graft, if_neg hw, hp]
        exact ih suf _
      | some p =>
        by_cases hpw : p = worldName
        · simp only [List.cons_append, graft, if_neg hw, hp, if_pos hpw]
          exact ih suf _
        · cases hf : findLink (acc.newLinks ++ [⟨e.name, LinkRef.world, Mat.ident⟩]) p with
          | none =>
            simp only [List.cons_append, graft, if_neg hw, hp, if_neg hpw, hf]
            simp
          | some j =>
            simp only [List.cons_append, graft, if_neg hw, hp, if_neg hpw, hf]
            exact ih suf _

/-- C3 amended: each entry whose declared parent is present and not
"world" is parented to the first Link whose name equals the declared
parent among the just-inserted batch only (the entries of this parse, up
to and including the entry itself); previously existing Links are not
searched, and when the parent is absent from the batch the graft
dereferences the end iterator (undefined behavior, modelled as a failed
graft) even if a previously existing Link carries that name.  Stated for
every batch and every entry position: the first conjunct certifies that
nwNames lists exactly the names of the Links a parse appends (in order);
the second says a non-world entry whose declared parent does not occur in
the batch up to and including itself makes the graft fail for every prior
tree; the third says that on success such an entry becomes the Link at
index links-before + position, parented to index links-before + j where j
is the first position of the parent name in the batch-so-far-plus-itself
name list - always inside the just-inserted batch, covering the
self-parent case j = position as well. -/
theorem C3_batch_only_parent_search :
    (∀ (pt : String → List UrdfLink) (d : String) (st st2 : St),
      parseModel pt st d = some st2 →
      st2.links.map Link.name = st.links.map Link.name ++ nwNames (pt d)) ∧
    (∀ (pt : String → List UrdfLink) (d : String) (st : St)
      (pre : List UrdfLink) (e : UrdfLink) (rest : List UrdfLink) (p : String),
      pt d = pre ++ e :: rest →
      e.name ≠ worldName → e.parent = some p → p ≠ worldName →
      findName (nwNames pre ++ [e.name]) p = none →
      parseModel pt st d = none) ∧
    (∀ (pt : String → List UrdfLink) (d : String) (st st2 : St)
      (pre : List UrdfLink) (e : UrdfLink) (rest : List UrdfLink)
      (p : String) (j : Nat),
      pt d = pre ++ e :: rest →
      e.name ≠ worldName → e.parent = some p → p ≠ worldName →
      findName (nwNames pre ++ [e.name]) p = some j →
      parseModel pt st d = some st2 →
      st2.links.get? (st.links.length + (nwNames pre).length)
          = some ⟨e.name, LinkRef.idx (st.links.length + j), Mat.ident⟩ ∧
      j < (nwNames pre).length + 1 ∧
      (nwNames pre ++ [e.name]).get? j = some p ∧
      (∀ k, k < j → (nwNames pre ++ [e.name]).get? k ≠ some p)) := by
  refine ⟨?_, ?_, ?_⟩
  · intro pt d st st2 h
    obtain ⟨⟨g, hg, hlinks, _⟩, _, _⟩ := parseModel_shape pt st d st2 h
    rw [hlinks, List.map_append, graft_names _ _ _ _ hg]
    simp
  · intro pt d st pre e rest p hpt hew hp hpw hfind
    unfold parseModel
    rw [hpt, graft_append]
    cases hg1 : graft st.links.length ⟨[], [], []⟩ pre with
    | none => simp
    | some g1 =>
      have hnames : g1.newLinks.map Link.name = nwNames pre := by
        simpa using graft_names st.links.length pre ⟨[], [], []⟩ g1 hg1
      have hfl : findLink (g1.newLinks ++ [⟨e.name, LinkRef.world, Mat.ident⟩]) p
          = none := by
        rw [findLink_eq_findName, List.map_append, hnames]
        simpa using hfind
      simp [graft, hew, hp, hpw, hfl]
  · intro pt d st st2 pre e rest p j hpt hew hp hpw hfind hparse
    obtain ⟨⟨gAll, hgAll, hlinks, _⟩, _, _⟩ := parseModel_shape pt st d st2 hparse
    rw [hpt, graft_append] at hgAll
    obtain ⟨g1, hg1, hstep⟩ := Option.bind_eq_some.mp hgAll
    have hnames : g1.newLinks.map Link.name = nwNames pre := by
      simpa using graft_names st.links.length pre ⟨[], [], []⟩ g1 hg1
    have hlen : g1.newLinks.length = (nwNames pre).length := by
      have := congrArg List.length hnames
      simpa using this
    have hfl : findLink (g1.newLinks ++ [⟨e.name, LinkRef.world, Mat.ident⟩]) p
        = some j := by
      rw [findLink_eq_findName, List.map_append, hnames]
      simpa using hfind
    simp only [graft, if_neg hew, hp, if_neg hpw, hfl] at hstep
    obtain ⟨tail, htail⟩ := graft_extends st.links.length rest _ gAll hstep
    obtain ⟨hjlt, hjget, hjfirst⟩ := findName_spec p (nwNames pre ++ [e.name]) j hfind
    have hassoc : st2.links = (st.links ++ g1.newLinks) ++
        (⟨e.name, LinkRef.idx (st.links.length + j), Mat.ident⟩ :: tail) := by
      rw [hlinks, htail]
      simp [List.append_assoc]
    refine ⟨?_, by simpa using hjlt, hjget, hjfirst⟩
    rw [hassoc, List.get?_append_right (by simp [hlen])]
    simp [hlen]

/-- Parser for the C3 witness: under "miss", a batch whose second entry
declares the parent "A" that exists only in the prior tree; under any
other name, a batch whose second entry declares itself as parent. -/
def ptC3w : String → List UrdfLink :=
  fun s => if s = "miss" then [⟨"x", none, []⟩, ⟨"B", some "A", []⟩]
           else [⟨"a", none, []⟩, ⟨"b", some "b", []⟩]

/-- Result state for the C3 witness self-parent batch grafted onto
stC3. -/
def stC3self : St :=
  ⟨[⟨"A", LinkRef.world, Mat.ident⟩, ⟨"a", LinkRef.world, Mat.ident⟩,
    ⟨"b", LinkRef.idx 2, Mat.ident⟩], [], [], [], []⟩

/-- C3 witness: a second-position entry whose parent "A" lives only in the
prior tree makes the graft fail, while an entry naming itself as parent is
bound to its own batch index (the search range includes the just-emplaced
entry), and the appended names are exactly the non-world batch names. -/
theorem C3_batch_only_parent_search_witness :
    parseModel ptC3w stC3 "miss" = none ∧
    parseModel ptC3w stC3 "self" = some stC3self ∧
    stC3self.links.get? (stC3.links.length + (nwNames [⟨"a", none, []⟩]).length)
        = some ⟨"b", LinkRef.idx (stC3.links.length + 1), Mat.ident⟩ ∧
    stC3self.links.map Link.name
        = stC3.links.map Link.name ++ nwNames (ptC3w "self") := by
  have hparse : parseModel ptC3w stC3 "self" = some stC3self := by decide
  refine ⟨?_, hparse, ?_, ?_⟩
  · exact (C3_batch_only_parent_search).2.1 ptC3w "miss" stC3
      [⟨"x", none, []⟩] ⟨"B", some "A", []⟩ [] "A"
      (by decide) (by decide) rfl (by decide) (by decide)
  · exact ((C3_batch_only_parent_search).2.2 ptC3w "self" stC3 stC3self
      [⟨"a", none, []⟩] ⟨"b", some "b", []⟩ [] "b" 1
      (by decide) (by decide) rfl (by decide) (by decide) hparse).1
  · exact (C3_batch_only_parent_search).1 ptC3w "self" stC3 stC3self hparse

/-! Claim C4: failed camera resolution is deferred, not fatal. -/

/-- Directory for the C4 counterexample: the camera frame exists but the
directory reports no parent for it. -/
def tfC4 : TfBuffer :=
  { ready := true, frames := [coral_cam_link],
    getParent := fun _ => none, delay := fun _ _ => 0 }

/-- C4 counterexample: when the directory reports no parent for the camera
frame itself, getKnownCamParent does not return the null sentinel - the
walk calls value() on the empty optional returned by the initial getParent
(the loop checks has_value only after the next query), which throws instead
of failing non-fatally as the claim states. -/
theorem C4_cam_no_parent_throws :
    tfC4.getParent coral_cam_link = none ∧
    (getKnownCamParent tfC4 [] none 5).step = CamStep.thrown ∧
    (refreshLinkPoses tfC4 [] none 5).cam = CamOutcome.thrown := by
  exact ⟨rfl, by decide, by decide⟩

/-- C4 amended: when the camera frame exists, the memoized fast path does
not apply, the camera frame itself has a parent, and the directory reports
no parent at some frame strictly above the camera before the walk reaches
the world name or a tracked Link, then getKnownCamParent returns the null
sentinel, the memoized state is cleared, and the viewer receives neither a
lockCamera nor a freeCamera call, so resolution is retried next tick; only
a missing parent at the camera frame itself is fatal. -/
theorem C4_unreachable_parent (tf : TfBuffer) (links : List Link)
    (prev : Option LinkRef) (fuel : Nat) (c : String) (cs : List String)
    (hframe : coral_cam_link ∈ tf.frames)
    (hfast : fastHit tf links prev = false)
    (hpar : tf.getParent coral_cam_link = some c)
    (hdead : deadChain tf links (c :: cs) = true)
    (hfuel : cs.length < fuel) :
    (refreshLinkPoses tf links prev fuel).cam = CamOutcome.noParent ∧
    (refreshLinkPoses tf links prev fuel).prev = none ∧
    (∀ M, Ev.lockCam M ∉ (refreshLinkPoses tf links prev fuel).trace) ∧
    Ev.freeCam ∉ (refreshLinkPoses tf links prev fuel).trace := by
  have hwalk : (camWalkQ tf links (tf.getParent coral_cam_link) fuel).1
      = CamStep.done none := by
    rw [hpar]
    exact camWalkQ_deadChain tf links cs c fuel hdead hfuel
  have hstep : (getKnownCamParent tf links prev fuel).step = CamStep.done none := by
    simp [getKnownCamParent, hfast, hwalk]
  have hprev : (getKnownCamParent tf links prev fuel).prev = none := by
    simp [getKnownCamParent, hfast, hwalk, camPrevOf]
  refine ⟨?_, ?_, ?_, ?_⟩
  · simp [refreshLinkPoses, hframe, hstep, camPhase]
  · simp [refreshLinkPoses, hframe, hprev]
  · intro M
    cases htr : tf.ready <;>
      simp [refreshLinkPoses, hframe, hstep, camPhase, htr]
  · cases htr : tf.ready <;>
      simp [refreshLinkPoses, hframe, hstep, camPhase, htr]

/-- Directory for the C4 witness: the camera frame has a parent "a" and the
directory reports no parent for "a". -/
def tfC4w : TfBuffer :=
  { ready := true, frames := [coral_cam_link],
    getParent := fun s => if s = coral_cam_link then some "a" else none,
    delay := fun _ _ => 0 }

/-- C4 witness: a chain that dies above the camera frame leaves the viewer
untouched for this tick. -/
theorem C4_unreachable_parent_witness :
    (refreshLinkPoses tfC4w [] none 1).cam = CamOutcome.noParent ∧
    Ev.freeCam ∉ (refreshLinkPoses tfC4w [] none 1).trace := by
  have h := C4_unreachable_parent tfC4w [] none 1 "a" []
    (by decide) (by decide) (by decide) (by decide) (by decide)
  exact ⟨h.1, h.2.2.2⟩

/-! Claim C5: the walk terminates at a tracked Link, not at world. -/

/-- C5: on a parent chain cam to A to B where B is a tracked Link of the
registry and A is not, the resolver terminates at the tracked Link B (not
at world), and the committed camera matrix is the cam-to-B lookup composed
with the committed matrix of B itself; the composition is performed
because the resolved parent is not named "world". -/
theorem C5_tracked_link_terminal (tf : TfBuffer) (links : List Link)
    (prev : Option LinkRef) (fuel : Nat) (a b : String) (i : Nat) (lb : Link)
    (hfast : fastHit tf links prev = false)
    (hframe : coral_cam_link ∈ tf.frames)
    (h0 : tf.getParent coral_cam_link = some a)
    (h1 : tf.getParent a = some b)
    (haw : a ≠ worldName)
    (hat : findLink links a = none)
    (hbw : b ≠ worldName)
    (hbt : findLink links b = some i)
    (hlb : links.get? i = some lb)
    (hfuel : 2 ≤ fuel)
    (hfresh : tf.delay b coral_cam_link < 1) :
    (getKnownCamParent tf links prev fuel).step
        = CamStep.done (some (LinkRef.idx i)) ∧
    LinkRef.idx i ≠ LinkRef.world ∧
    lb.name = b ∧
    (refreshLinkPoses tf links prev fuel).cam
        = CamOutcome.locked (Mat.mul (Mat.lookup b coral_cam_link) lb.mat) := by
  obtain ⟨l2, hl2, hl2n⟩ := findLink_some b links i hbt
  rw [hlb] at hl2
  injection hl2 with hl2e
  subst hl2e
  obtain ⟨k, rfl⟩ : ∃ k, fuel = k + 2 := ⟨fuel - 2, by omega⟩
  have hlb2 : links[i]? = some lb := by
    rw [← List.get?_eq_getElem?]
    exact hlb
  have hwalk : (camWalkQ tf links (some a) (k + 2)).1
      = CamStep.done (some (LinkRef.idx i)) := by
    show (camWalkQ tf links (some a) (k + 1 + 1)).1 = _
    simp [camWalkQ, haw, hat, h1, hbw, hbt]
  have hstep : (getKnownCamParent tf links prev (k + 2)).step
      = CamStep.done (some (LinkRef.idx i)) := by
    simp [getKnownCamParent, hfast, h0, hwalk]
  have hrn : refName links (LinkRef.idx i) = b := by
    simp [refName, hlb2, hl2n]
  refine ⟨hstep, by simp, hl2n, ?_⟩
  have hcam : (refreshLinkPoses tf links prev (k + 2)).cam
      = (camPhase tf links (CamStep.done (some (LinkRef.idx i)))).2 := by
    simp [refreshLinkPoses, hframe, hstep]
  rw [hcam]
  simp only [camPhase, hrn]
  rw [if_pos (Or.inl hfresh)]
  simp [camMatrix, hrn, refMat, hlb2, hbw]

/-- Directory for the C5 witness: chain cam to "A" to "B" to nothing, with
"B" tracked. -/
def tfC5 : TfBuffer :=
  { ready := true, frames := [coral_cam_link],
    getParent := fun s => if s = coral_cam_link then some "A"
                          else if s = "A" then some "B" else none,
    delay := fun _ _ => 0 }

/-- Registry for the C5 witness: the tracked Link "B" with committed matrix
Mat.base 7. -/
def linksC5 : List Link := [⟨"B", LinkRef.world, Mat.base 7⟩]

/-- C5 witness: resolution stops at the tracked Link "B" and composes the
lookup with the committed matrix of "B". -/
theorem C5_tracked_link_terminal_witness :
    (getKnownCamParent tfC5 linksC5 none 2).step
        = CamStep.done (some (LinkRef.idx 0)) ∧
    (refreshLinkPoses tfC5 linksC5 none 2).cam
        = CamOutcome.locked (Mat.mul (Mat.lookup "B" coral_cam_link) (Mat.base 7)) := by
  have h := C5_tracked_link_terminal tfC5 linksC5 none 2 "A" "B" 0
    ⟨"B", LinkRef.world, Mat.base 7⟩
    (by decide) (by decide) (by decide) (by decide) (by decide) (by decide)
    (by decide) (by decide) (by decide) (by decide) (by decide)
  exact ⟨h.1, h.2.2.2⟩

/-! Claim C6: two-phase refresh under a single lock acquisition. -/

theorem get?_three {α : Type} (A B C : List α) (x y : α) (i : Nat) :
    (A ++ x :: (B ++ y :: C)).get? i =
      if i < A.length then A.get? i
      else if i = A.length then some x
      else if i - A.length - 1 < B.length then B.get? (i - A.length - 1)
      else if i - A.length - 1 = B.length then some y
      else C.get? (i - A.length - 1 - B.length - 1) := by
  by_cases h1 : i < A.length
  · rw [if_pos h1, List.get?_append h1]
  · rw [if_neg h1, List.get?_append_right (le_of_not_lt h1)]
    by_cases h2 : i = A.length
    · rw [if_pos h2, h2]
      simp
    · rw [if_neg h2]
      obtain ⟨j, hj⟩ : ∃ j, i - A.length = j + 1 :=
        ⟨i - A.length - 1, by omega⟩
      rw [hj]
      show (B ++ y :: C).get? j = _
      simp only [Nat.add_sub_cancel]
      by_cases h4 : j < B.length
      · rw [if_pos h4, List.get?_append h4]
      · rw [if_neg h4, List.get?_append_right (le_of_not_lt h4)]
        by_cases h5 : j = B.length
        · rw [if_pos h5, h5]
          simp
        · rw [if_neg h5]
          obtain ⟨m, hm⟩ : ∃ m, j - B.length = m + 1 :=
            ⟨j - B.length - 1, by omega⟩
          rw [hm]
          show C.get? m = _
          simp only [Nat.add_sub_cancel]

theorem camPhase_events (tf : TfBuffer) (links : List Link) (s : CamStep) :
    ∀ e ∈ (camPhase tf links s).1, (∃ M, e = Ev.lockCam M) ∨ e = Ev.freeCam := by
  intro e he
  cases s with
  | thrown => simp [camPhase] at he
  | fuelOut => simp [camPhase] at he
  | done r =>
    cases r with
    | none => simp [camPhase] at he
    | some l =>
      simp only [camPhase] at he
      split at he
      · simp at he
        exact Or.inl ⟨_, he⟩
      · simp at he
        exact Or.inr he

theorem refresh_trace_shape (tf : TfBuffer) (links : List Link)
    (prev : Option LinkRef) (fuel : Nat) :
    ∃ post, (refreshLinkPoses tf links prev fuel).trace
      = (if tf.ready then links.map (fun l => Ev.refresh l.name) else [])
        ++ Ev.lockAcq :: (links.map (fun l => Ev.apply l.name) ++ Ev.lockRel :: post)
      ∧ ∀ e ∈ post, (∃ M, e = Ev.lockCam M) ∨ e = Ev.freeCam := by
  by_cases hf : coral_cam_link ∈ tf.frames
  · refine ⟨(camPhase tf links (getKnownCamParent tf links prev fuel).step).1,
      ?_, camPhase_events _ _ _⟩
    simp [refreshLinkPoses, hf]
  · refine ⟨[], ?_, by simp⟩
    simp [refreshLinkPoses, hf]

/-- Directory for the C6 counterexample: the transform buffer is not
ready. -/
def tfC6 : TfBuffer :=
  { ready := false, frames := [], getParent := fun _ => none,
    delay := fun _ _ => 0 }

/-- Registry for the C6 counterexample and witness. -/
def linksC6 : List Link := [⟨"L", LinkRef.world, Mat.ident⟩]

/-- C6 counterexample: when the transform buffer is not ready, Phase A is
skipped entirely - refreshFrom is not called for any Link in that tick,
although applyNewPose still runs for every Link, contradicting the claim
that refreshFrom is called for every Link in every tick. -/
theorem C6_not_ready_skips_refresh :
    (refreshLinkPoses tfC6 linksC6 none 1).trace
        = [Ev.lockAcq, Ev.apply "L", Ev.lockRel] ∧
    Ev.refresh "L" ∉ (refreshLinkPoses tfC6 linksC6 none 1).trace ∧
    Ev.apply "L" ∈ (refreshLinkPoses tfC6 linksC6 none 1).trace := by
  exact ⟨by decide, by decide, by decide⟩

/-- C6 amended: in every tick in which the transform buffer reports ready,
refreshFrom is called for every Link of the tree, every refreshFrom call
precedes every applyNewPose call, and the applyNewPose calls for all Links
lie strictly between the unique scene-lock acquisition and the unique
release (a single lock acquisition); when the buffer is not ready the
refresh phase is skipped while the locked apply phase still runs. -/
theorem C6_two_phase (tf : TfBuffer) (links : List Link) (prev : Option LinkRef)
    (fuel : Nat) (hready : tf.ready = true) :
    (∀ l ∈ links, Ev.refresh l.name ∈ (refreshLinkPoses tf links prev fuel).trace) ∧
    (∀ i n, (refreshLinkPoses tf links prev fuel).trace.get? i
        = some (Ev.refresh n) → i < links.length) ∧
    (∀ i, (refreshLinkPoses tf links prev fuel).trace.get? i = some Ev.lockAcq
        ↔ i = links.length) ∧
    (∀ i, (refreshLinkPoses tf links prev fuel).trace.get? i = some Ev.lockRel
        ↔ i = 2 * links.length + 1) ∧
    (∀ i m, (refreshLinkPoses tf links prev fuel).trace.get? i = some (Ev.apply m)
        → links.length < i ∧ i < 2 * links.length + 1) ∧
    (∀ i j n m, (refreshLinkPoses tf links prev fuel).trace.get? i
          = some (Ev.refresh n)
        → (refreshLinkPoses tf links prev fuel).trace.get? j = some (Ev.apply m)
        → i < j) := by
  obtain ⟨post, hshape, hpost⟩ := refresh_trace_shape tf links prev fuel
  rw [hready, if_pos rfl] at hshape
  have hAlen : (links.map (fun l => Ev.refresh l.name)).length = links.length := by
    simp
  have hBlen : (links.map (fun l => Ev.apply l.name)).length = links.length := by
    simp
  have classify : ∀ i e, (refreshLinkPoses tf links prev fuel).trace.get? i
      = some e →
      (i < links.length ∧ ∃ n, e = Ev.refresh n) ∨
      (i = links.length ∧ e = Ev.lockAcq) ∨
      (links.length < i ∧ i < 2 * links.length + 1 ∧ ∃ n, e = Ev.apply n) ∨
      (i = 2 * links.length + 1 ∧ e = Ev.lockRel) ∨
      (2 * links.length + 1 < i ∧ ((∃ M, e = Ev.lockCam M) ∨ e = Ev.freeCam)) := by
    intro i e he
    rw [hshape, get?_three, hAlen, hBlen] at he
    by_cases h1 : i < links.length
    · rw [if_pos h1, List.get?_map] at he
      obtain ⟨l, _, hfl⟩ := Option.map_eq_some'.mp he
      exact Or.inl ⟨h1, l.name, hfl.symm⟩
    · rw [if_neg h1] at he
      by_cases h2 : i = links.length
      · rw [if_pos h2] at he
        exact Or.inr (Or.inl ⟨h2, (Option.some.injEq _ _ ▸ he).symm⟩)
      · rw [if_neg h2] at he
        by_cases h3 : i - links.length - 1 < links.length
        · rw [if_pos h3, List.get?_map] at he
          obtain ⟨l, _, hfl⟩ := Option.map_eq_some'.mp he
          exact Or.inr (Or.inr (Or.inl ⟨by omega, by omega, l.name, hfl.symm⟩))
        · rw [if_neg h3] at he
          by_cases h4 : i - links.length - 1 = links.length
          · rw [if_pos h4] at he
            exact Or.inr (Or.inr (Or.inr (Or.inl
              ⟨by omega, (Option.some.injEq _ _ ▸ he).symm⟩)))
          · rw [if_neg h4] at he
            exact Or.inr (Or.inr (Or.inr (Or.inr
              ⟨by omega, hpost e (List.get?_mem he)⟩)))
  have hidxR : ∀ i n, (refreshLinkPoses tf links prev fuel).trace.get? i
      = some (Ev.refresh n) → i < links.length := by
    intro i n he
    rcases classify i _ he with ⟨h, _⟩ | ⟨_, h⟩ | ⟨_, _, _, h⟩ | ⟨_, h⟩ |
      ⟨_, ⟨_, h⟩ | h⟩ <;> first | exact h | simp at h
  have hidxA : ∀ i m, (refreshLinkPoses tf links prev fuel).trace.get? i
      = some (Ev.apply m) → links.length < i ∧ i < 2 * links.length + 1 := by
    intro i m he
    rcases classify i _ he with ⟨_, _, h⟩ | ⟨_, h⟩ | ⟨h5, h6, _, _⟩ | ⟨_, h⟩ |
      ⟨_, ⟨_, h⟩ | h⟩ <;> first | exact ⟨h5, h6⟩ | simp at h
  refine ⟨?_, hidxR, ?_, ?_, hidxA, ?_⟩
  · intro l hl
    rw [hshape]
    exact List.mem_append_left _ (List.mem_map.mpr ⟨l, hl, rfl⟩)
  · intro i
    constructor
    · intro he
      rcases classify i _ he with ⟨_, _, h⟩ | ⟨h, _⟩ | ⟨_, _, _, h⟩ | ⟨_, h⟩ |
        ⟨_, ⟨_, h⟩ | h⟩ <;> first | exact h | simp at h
    · intro hi
      subst hi
      rw [hshape, get?_three, hAlen, hBlen]
      simp
  · intro i
    constructor
    · intro he
      rcases classify i _ he with ⟨_, _, h⟩ | ⟨_, h⟩ | ⟨_, _, _, h⟩ | ⟨h, _⟩ |
        ⟨_, ⟨_, h⟩ | h⟩ <;> first | exact h | simp at h
    · intro hi
      subst hi
      rw [hshape, get?_three, hAlen, hBlen]
      have e1 : ¬(2 * links.length + 1 < links.length) := by omega
      have e2 : ¬(2 * links.length + 1 = links.length) := by omega
      have e3 : ¬(2 * links.length + 1 - links.length - 1 < links.length) := by
        omega
      have e4 : 2 * links.length + 1 - links.length - 1 = links.length := by
        omega
      rw [if_neg (by omega), if_neg e2, if_neg e3, if_pos e4]
  · intro i j n m hi hj
    have h1 := hidxR i n hi
    have h2 := hidxA j m hj
    omega

/-- Ready directory for the C6 witness. -/
def tfC6w : TfBuffer :=
  { ready := true, frames := [], getParent := fun _ => none,
    delay := fun _ _ => 0 }

/-- C6 witness: with a ready buffer, the one Link is refreshed and the lock
acquisition sits right after the refresh phase. -/
theorem C6_two_phase_witness :
    Ev.refresh "L" ∈ (refreshLinkPoses tfC6w linksC6 none 1).trace ∧
    ((refreshLinkPoses tfC6w linksC6 none 1).trace.get? 1 = some Ev.lockAcq
      ↔ 1 = linksC6.length) := by
  have h := C6_two_phase tfC6w linksC6 none 1 rfl
  exact ⟨h.1 ⟨"L", LinkRef.world, Mat.ident⟩ (by decide), h.2.2.1 1⟩

/-! Claim C7: the memoized fast path. -/

/-- C7: when a previous resolution is memoized and the immediate parent of
the camera frame equals the name of the memoized Link, getKnownCamParent
returns the memoized Link after the single immediate-parent query (no walk
happens, even with zero fuel); whenever the fast-path test fails, the
memoized state is irrelevant and the call behaves exactly like a full
re-walk with no memo. -/
theorem C7_fastpath_memo (tf : TfBuffer) (links : List Link)
    (prev : Option LinkRef) (fuel : Nat) :
    (∀ pl, prev = some pl →
      tf.getParent coral_cam_link = some (refName links pl) →
      getKnownCamParent tf links prev fuel
        = ⟨CamStep.done (some pl), some pl, [coral_cam_link]⟩) ∧
    (fastHit tf links prev = false →
      getKnownCamParent tf links prev fuel
        = getKnownCamParent tf links none fuel) := by
  constructor
  · intro pl hpl hpar
    subst hpl
    have hfast : fastHit tf links (some pl) = true := by
      simp [fastHit, hpar]
    simp [getKnownCamParent, hfast]
  · intro hfast
    have hnone : fastHit tf links none = false := rfl
    simp [getKnownCamParent, hfast, hnone]

/-- Directory for the C7 witness: the immediate parent of the camera frame
is the tracked Link "P". -/
def tfC7 : TfBuffer :=
  { ready := true, frames := [coral_cam_link],
    getParent := fun s => if s = coral_cam_link then some "P" else none,
    delay := fun _ _ => 0 }

/-- Registry for the C7 witness. -/
def linksC7 : List Link := [⟨"P", LinkRef.world, Mat.base 3⟩]

/-- C7 witness: the memoized Link "P" is returned with zero walk fuel, and
a memo that fails the fast-path test behaves like no memo at all. -/
theorem C7_fastpath_memo_witness :
    getKnownCamParent tfC7 linksC7 (some (LinkRef.idx 0)) 0
      = ⟨CamStep.done (some (LinkRef.idx 0)), some (LinkRef.idx 0),
          [coral_cam_link]⟩ ∧
    getKnownCamParent tfC7 linksC7 (some LinkRef.world) 4
      = getKnownCamParent tfC7 linksC7 none 4 := by
  constructor
  · exact (C7_fastpath_memo tfC7 linksC7 (some (LinkRef.idx 0)) 0).1
      (LinkRef.idx 0) rfl (by decide)
  · exact (C7_fastpath_memo tfC7 linksC7 (some LinkRef.world) 4).2 (by decide)

/-! Claim C8: failed spawns leave the tree untouched. -/

/-- C8: when the world-model file cannot be opened, or the description
service of the namespace has no robot_description parameter, the spawn is
abandoned with a warning and the whole node state - links, world elements,
models, subscriptions, cameras - is unchanged. -/
theorem C8_spawn_abandoned (env : SpawnEnv) (st : St) (ns topic wfile : String)
    (h : (wfile ≠ "" ∧ env.readFile wfile = none) ∨
        (wfile = "" ∧ ns ≠ "" ∧ hasModel st ns = false ∧
          env.rspHasParam ns = false)) :
    ∃ out, spawnModel env st ns topic wfile = some out ∧
      out.st = st ∧ out.warned = true := by
  rcases h with ⟨hw, hrf⟩ | ⟨hw, hns, hdup, hparam⟩
  · refine ⟨⟨st, true, false, false⟩, ?_, rfl, rfl⟩
    unfold spawnModel
    rw [if_neg (fun hc => hw hc.2), if_pos hw, hrf]
  · refine ⟨⟨st, true, true, false⟩, ?_, rfl, rfl⟩
    unfold spawnModel
    rw [if_neg (fun hc => hns hc.1), if_neg (by simp [hw]),
      if_neg (by simp [hdup]), if_pos hparam]

/-- Environment for the C8 witness: no file can be read. -/
def envC8 : SpawnEnv :=
  { readFile := fun _ => none, parseTree := fun _ => [],
    rspHasParam := fun _ => false, rspDescription := fun _ => "" }

/-- State for the C8 witness. -/
def stC8 : St := ⟨[⟨"base", LinkRef.world, Mat.ident⟩], [], [], [], []⟩

/-- C8 witness: an unreadable world-model file leaves the state unchanged
and warns. -/
theorem C8_spawn_abandoned_witness :
    ∃ out, spawnModel envC8 stC8 "" "" "missing.urdf" = some out ∧
      out.st = stC8 ∧ out.warned = true :=
  C8_spawn_abandoned envC8 stC8 "" "" "missing.urdf" (Or.inl ⟨by decide, rfl⟩)

/-! Claim C9: the links registry never holds a Link named "world". -/

theorem parseModel_preserves_no_world (pt : String → List UrdfLink) (sa : St)
    (d : String) (sb : St) (h : parseModel pt sa d = some sb)
    (h0 : ∀ l ∈ sa.links, l.name ≠ worldName) :
    ∀ l ∈ sb.links, l.name ≠ worldName := by
  obtain ⟨⟨g, hg, hlinks, _⟩, _, _⟩ := parseModel_shape pt sa d sb h
  intro l hl
  rw [hlinks] at hl
  rcases List.mem_append.mp hl with hin | hnew
  · exact h0 l hin
  · rcases (graft_spec sa.links.length (pt d) ⟨[], [], []⟩ g hg).2 l hnew with
      hin2 | ⟨e, _, hne, hname⟩
    · simp at hin2
    · rw [hname]; exact hne

theorem parseModel_worldElems (pt : String → List UrdfLink) (sa : St)
    (d : String) (sb : St) (h : parseModel pt sa d = some sb) :
    sb.worldElems = sa.worldElems ++
      (pt d).filter (fun e => e.name == worldName) := by
  obtain ⟨⟨g, hg, _, hwe⟩, _, _⟩ := parseModel_shape pt sa d sb h
  rw [hwe, (graft_spec sa.links.length (pt d) ⟨[], [], []⟩ g hg).1]
  simp

/-- C9: after any sequence of parseModel calls starting from a registry
with no Link named "world", the registry still has no Link named "world";
a batch entry named "world" appends nothing and its elements are instead
accumulated onto the World Link (addElements), so the World Link stays the
unique root. -/
theorem C9_world_never_in_links (pt : String → List UrdfLink) (st : St)
    (descs : List String) (st2 : St)
    (h0 : ∀ l ∈ st.links, l.name ≠ worldName)
    (hrun : runParses pt st descs = some st2) :
    (∀ l ∈ st2.links, l.name ≠ worldName) ∧
    (∀ (sa : St) (d : String) (sb : St), parseModel pt sa d = some sb →
      sb.worldElems = sa.worldElems ++
        (pt d).filter (fun e => e.name == worldName)) := by
  have main : ∀ (ds : List String) (s : St),
      (∀ l ∈ s.links, l.name ≠ worldName) →
      runParses pt s ds = some st2 →
      ∀ l ∈ st2.links, l.name ≠ worldName := by
    intro ds
    induction ds with
    | nil =>
      intro s h0s hrun2
      simp [runParses] at hrun2
      subst hrun2
      exact h0s
    | cons dd rest ih =>
      intro s h0s hrun2
      simp only [runParses] at hrun2
      cases hp : parseModel pt s dd with
      | none => rw [hp] at hrun2; simp at hrun2
      | some sm =>
        rw [hp] at hrun2
        exact ih sm (parseModel_preserves_no_world pt s dd sm hp h0s) hrun2
  exact ⟨main descs st h0 hrun,
    fun sa d sb h => parseModel_worldElems pt sa d sb h⟩

/-- Parser for the C9 witness: a batch holding a "world" entry followed by
a child of world. -/
def ptC9 : String → List UrdfLink :=
  fun _ => [⟨"world", none, []⟩, ⟨"base", some "world", []⟩]

/-- Empty initial state for the C9 witness. -/
def stC9 : St := ⟨[], [], [], [], []⟩

/-- Resulting state for the C9 witness: the "world" entry was merged, not
appended. -/
def stC9r : St :=
  ⟨[⟨"base", LinkRef.world, Mat.ident⟩], [⟨"world", none, []⟩], [], [], []⟩

/-- C9 witness: one parse of a batch containing a "world" entry leaves no
"world"-named Link in the registry. -/
theorem C9_world_never_in_links_witness :
    runParses ptC9 stC9 ["d"] = some stC9r ∧
    (∀ l ∈ stC9r.links, l.name ≠ worldName) := by
  have hrun : runParses ptC9 stC9 ["d"] = some stC9r := by decide
  exact ⟨hrun,
    (C9_world_never_in_links ptC9 stC9 ["d"] stC9r (by decide) hrun).1⟩

/-! Claim C10: the pose subscription binds the batch root of the parse. -/

/-- C10: spawning a namespace with a non-empty pose topic creates a pose
subscription exactly when the parse appended at least one Link, and the
handler is the poseCallback of the Link at index links.size()-before-parse,
the first Link appended by that parse. -/
theorem C10_pose_subscription (env : SpawnEnv) (st : St) (ns topic : String)
    (st2 : St)
    (hns : ns ≠ "") (htopic : topic ≠ "")
    (hdup : hasModel st ns = false)
    (hparam : env.rspHasParam ns = true)
    (hparse : parseModel env.parseTree st (env.rspDescription ns) = some st2) :
    ∃ out, spawnModel env st ns topic "" = some out ∧
      ((st.links.length < st2.links.length →
        ∃ rootLink, st2.links.get? st.links.length = some rootLink ∧
          out.st.poseSubs = st.poseSubs ++
            [(ns ++ "/" ++ topic, rootLink.name)]) ∧
      (st2.links.length ≤ st.links.length →
        out.st.poseSubs = st.poseSubs)) := by
  have hps : st2.poseSubs = st.poseSubs := (parseModel_shape _ _ _ _ hparse).2.1
  by_cases hgrow : st.links.length < st2.links.length
  · obtain ⟨rootLink, hroot⟩ :
        ∃ rl, st2.links.get? st.links.length = some rl := by
      cases hq : st2.links.get? st.links.length with
      | none =>
        have := List.get?_eq_none.mp hq
        omega
      | some rl => exact ⟨rl, rfl⟩
    have heq : spawnModel env st ns topic "" = some
        ⟨{ st2 with
            poseSubs := st2.poseSubs ++ [(ns ++ "/" ++ topic, rootLink.name)],
            models := st2.models ++ [ns] }, false, true, false⟩ := by
      unfold spawnModel
      rw [if_neg (fun hc => hns hc.1), if_neg (by simp),
        if_neg (by simp [hdup]), if_neg (by simp [hparam])]
      simp only [hparse]
      rw [if_pos ⟨htopic, hgrow⟩, hroot]
      rfl
    refine ⟨_, heq, ?_, ?_⟩
    · intro _
      exact ⟨rootLink, hroot, by simp [hps]⟩
    · intro hle
      omega
  · have heq : spawnModel env st ns topic "" = some
        ⟨{ st2 with models := st2.models ++ [ns] }, false, true, false⟩ := by
      unfold spawnModel
      rw [if_neg (fun hc => hns hc.1), if_neg (by simp),
        if_neg (by simp [hdup]), if_neg (by simp [hparam])]
      simp only [hparse]
      rw [if_neg (fun hc => hgrow hc.2)]
    refine ⟨_, heq, ?_, ?_⟩
    · intro h
      exact absurd h hgrow
    · intro _
      exact hps

/-- Environment for the C10 witness: the description of any namespace
parses to a two-Link batch rooted at "base". -/
def envC10 : SpawnEnv :=
  { readFile := fun _ => none,
    parseTree := fun _ => [⟨"base", none, []⟩, ⟨"arm", some "base", []⟩],
    rspHasParam := fun _ => true, rspDescription := fun _ => "d" }

/-- Empty initial state for the C10 witness. -/
def stC10 : St := ⟨[], [], [], [], []⟩

/-- Parsed state for the C10 witness. -/
def stC10p : St :=
  ⟨[⟨"base", LinkRef.world, Mat.ident⟩, ⟨"arm", LinkRef.idx 0, Mat.ident⟩],
    [], [], [], []⟩

/-- C10 witness: the created subscription names the batch root "base", not
the later link "arm". -/
theorem C10_pose_subscription_witness :
    ∃ out, spawnModel envC10 stC10 "/r" "pose" "" = some out ∧
      (stC10.links.length < stC10p.links.length →
        ∃ rootLink, stC10p.links.get? stC10.links.length = some rootLink ∧
          out.st.poseSubs = stC10.poseSubs ++
            [("/r" ++ "/" ++ "pose", rootLink.name)]) := by
  obtain ⟨out, ho, h1, _⟩ := C10_pose_subscription envC10 stC10 "/r" "pose"
    stC10p (by decide) (by decide) (by decide) (by decide) (by decide)
  exact ⟨out, ho, h1⟩

end Coral
